import Mathlib

/-!
Verification of the stream-normalization pipeline of `lite-lingo-backend`.

The development shallowly embeds the marker-driven stream processor
(`src/translate/marker-stream.processor.ts`: both the plain variant and the
variant that re-emits text in 3-character chunks via `emitTextInChunks`),
and the envelope-producing translation services
(`src/translate/translate.service.ts` and
`src/translate/translate.service.v2.ts`).

Strings are embedded as `List Char`; JavaScript `indexOf`/`substring`
become explicit functions on lists.  Observable pipelines are embedded as
functions from the upstream stream (the list of items delivered before the
terminal signal, plus the terminal signal itself) to the list of envelopes
pushed to the subscriber, following the documented rxjs semantics of the
operators used (`map`, `catchError`, `endWith`, `finalize`, `Subject`).
-/

namespace LiteLingo

/-- Strings of the TypeScript source, embedded as lists of characters. -/
abbrev Str := List Char

/-- The five section names of `SectionNames` / `EndMarkers`
(`marker-stream.processor.ts`, lines 188-202 of the plain variant). -/
inductive MSection
  | EXPLANATION
  | CONTEXT_EXPLANATION
  | DICTIONARY
  | TRANSLATION_RESULT
  | FRAGMENT_ERROR
deriving DecidableEq, Fintype, Repr

/-- The start marker associated to a section (the keys of `SectionNames`). -/
def startMarkerStr : MSection → String
  | .EXPLANATION => "[EXPLANATION_START]"
  | .CONTEXT_EXPLANATION => "[CONTEXT_EXPLANATION_START]"
  | .DICTIONARY => "[DICTIONARY_START]"
  | .TRANSLATION_RESULT => "[TRANSLATION_RESULT_START]"
  | .FRAGMENT_ERROR => "[FRAGMENT_ERROR_START]"

/-- The end marker associated to a section (the values of `EndMarkers`). -/
def endMarkerStr : MSection → String
  | .EXPLANATION => "[EXPLANATION_END]"
  | .CONTEXT_EXPLANATION => "[CONTEXT_EXPLANATION_END]"
  | .DICTIONARY => "[DICTIONARY_END]"
  | .TRANSLATION_RESULT => "[TRANSLATION_RESULT_END]"
  | .FRAGMENT_ERROR => "[FRAGMENT_ERROR_END]"

/-- A known marker.  `findFirstMarker` in the source tags each marker with
`isStart = marker.endsWith('_START]')`; since the start markers are exactly
the keys of `SectionNames` (all ending in `_START]`) and the end markers the
values of `EndMarkers` (ending in `_END]`), the tag is equivalent to the
constructor used here. -/
inductive Marker
  | start (s : MSection)
  | close (s : MSection)
deriving DecidableEq, Fintype, Repr

/-- The literal text of a marker. -/
def markerStr : Marker → Str
  | .start s => (startMarkerStr s).toList
  | .close s => (endMarkerStr s).toList

/-- `allMarkers = [...startMarkers, ...endMarkers]` in the iteration order of
the source objects (`findFirstMarker`, lines 209-211). -/
def allMarkers : List Marker :=
  [.start .EXPLANATION, .start .CONTEXT_EXPLANATION, .start .DICTIONARY,
   .start .TRANSLATION_RESULT, .start .FRAGMENT_ERROR,
   .close .EXPLANATION, .close .CONTEXT_EXPLANATION, .close .DICTIONARY,
   .close .TRANSLATION_RESULT, .close .FRAGMENT_ERROR]

/-- JavaScript `hay.indexOf(needle)`: the smallest index at which `needle`
occurs as a contiguous substring of `hay`, or `none` (`-1` in the source). -/
def indexOfSub (needle : Str) : Str → Option Nat
  | [] => if needle.isPrefixOf [] then some 0 else none
  | c :: t =>
    if needle.isPrefixOf (c :: t) then some 0
    else (indexOfSub needle t).map (· + 1)

/-- One step of the scan in `findFirstMarker` (lines 213-220): keep the
candidate with the strictly smaller index, the earlier marker in
`allMarkers` winning ties. -/
def findStep (text : Str) (acc : Option (Marker × Nat)) (m : Marker) :
    Option (Marker × Nat) :=
  match indexOfSub (markerStr m) text with
  | none => acc
  | some i =>
    match acc with
    | none => some (m, i)
    | some (_, j) => if i < j then some (m, i) else acc

/-- `findFirstMarker` (lines 204-222): the earliest occurrence, over all
known markers, of a marker in `text`. -/
def findFirstMarker (text : Str) : Option (Marker × Nat) :=
  allMarkers.foldl (findStep text) none

/-- The structural events emitted by `MarkerStreamProcessor`
(the `section_start` / `text_chunk` / `section_end` members of
`ApiResponseV2Data`, each wrapped in a code-`'0'` success envelope by the
source; the envelope adds no information for these events, so they are
embedded by their payload). -/
inductive Event
  | sectionStart (s : MSection)
  | textChunk (t : Str)
  | sectionEnd (s : MSection)
deriving DecidableEq, Repr

/-- The mutable state of a `MarkerStreamProcessor` instance:
`private buffer = ''` and `private currentSection: string | null = null`. -/
structure PState where
  buffer : Str
  currentSection : Option MSection
deriving DecidableEq, Repr

/-- Handling of a found marker (`process`, lines 260-300 of the plain
variant): a start marker implicitly closes any open section and opens the
new one; an end marker closes the section only when it matches the one
currently open, and is otherwise ignored. -/
def handleMarker : Marker → Option MSection → List Event × Option MSection
  | .start s, none => ([.sectionStart s], some s)
  | .start s, some cur => ([.sectionEnd cur, .sectionStart s], some s)
  | .close s, sec =>
    if sec = some s then ([.sectionEnd s], none) else ([], sec)

/-- The body of the `while (continueProcessing)` loop of the plain
`MarkerStreamProcessor.process` (lines 234-306): repeatedly find the
earliest marker, emit the text before it when a section is open, handle the
marker, drop the consumed part of the buffer, and repeat until no marker is
left.  Returns the emitted events, the residual buffer and the new current
section. -/
def processLoop (buf : Str) (sec : Option MSection) :
    List Event × Str × Option MSection :=
  match h : findFirstMarker buf with
  | none => ([], buf, sec)
  | some (m, i) =>
    let textBefore := buf.take i
    let textEvents : List Event :=
      if textBefore ≠ [] ∧ sec.isSome then [.textChunk textBefore] else []
    let handled := handleMarker m sec
    let rest := processLoop (buf.drop (i + (markerStr m).length)) handled.2
    (textEvents ++ handled.1 ++ rest.1, rest.2)
termination_by buf.length
decreasing_by
  have hmlen : 0 < (markerStr m).length := by
    cases m <;> rename_i s <;> cases s <;> decide
  cases buf with
  | nil =>
    have hnil : findFirstMarker ([] : Str) = none := by decide
    rw [hnil] at h
    cases h
  | cons c t => simp; omega

/-- `MarkerStreamProcessor.process` of the plain variant (lines 229-314):
append the incoming chunk to the buffer and run the marker loop.  The
warning branches of the source (text outside a section, unexpected end
marker) emit no events and are therefore invisible in the event list. -/
def process (s : PState) (chunk : Str) : List Event × PState :=
  let r := processLoop (s.buffer ++ chunk) s.currentSection
  (r.1, ⟨r.2.1, r.2.2⟩)

/-- `MarkerStreamProcessor.finalize` of the plain variant (lines 316-339):
flush the residual buffer as one `text_chunk` and implicitly close the
section when one is open, otherwise only log; the buffer is always
cleared, and `currentSection` is reset only on the flushing path. -/
def finalize (s : PState) : List Event × PState :=
  match s.currentSection with
  | some cur =>
    if s.buffer ≠ [] then
      ([.textChunk s.buffer, .sectionEnd cur], ⟨[], none⟩)
    else ([], ⟨[], some cur⟩)
  | none => ([], ⟨[], none⟩)

/-- `emitTextInChunks` of the chunking variant (lines 54-64): split text
into pieces of `chunkSize = 3` characters, each emitted as a `text_chunk`. -/
def emitTextInChunks : Str → List Event
  | [] => []
  | c :: rest =>
    .textChunk ((c :: rest).take 3) :: emitTextInChunks ((c :: rest).drop 3)
termination_by t => t.length
decreasing_by simp; omega

/-- The marker loop of the chunking variant of
`MarkerStreamProcessor.process` (lines 77-142): identical to `processLoop`
except that the text before a marker is emitted through
`emitTextInChunks`. -/
def processLoopChunked (buf : Str) (sec : Option MSection) :
    List Event × Str × Option MSection :=
  match h : findFirstMarker buf with
  | none => ([], buf, sec)
  | some (m, i) =>
    let textBefore := buf.take i
    let textEvents : List Event :=
      if textBefore ≠ [] ∧ sec.isSome then emitTextInChunks textBefore
      else []
    let handled := handleMarker m sec
    let rest := processLoopChunked (buf.drop (i + (markerStr m).length))
      handled.2
    (textEvents ++ handled.1 ++ rest.1, rest.2)
termination_by buf.length
decreasing_by
  have hmlen : 0 < (markerStr m).length := by
    cases m <;> rename_i s <;> cases s <;> decide
  cases buf with
  | nil =>
    have hnil : findFirstMarker ([] : Str) = none := by decide
    rw [hnil] at h
    cases h
  | cons c t => simp; omega

/-- `MarkerStreamProcessor.process` of the chunking variant (lines 72-145). -/
def processChunked (s : PState) (chunk : Str) : List Event × PState :=
  let r := processLoopChunked (s.buffer ++ chunk) s.currentSection
  (r.1, ⟨r.2.1, r.2.2⟩)

/-- `MarkerStreamProcessor.finalize` of the chunking variant
(lines 147-170): as the plain `finalize` but flushing through
`emitTextInChunks`. -/
def finalizeChunked (s : PState) : List Event × PState :=
  match s.currentSection with
  | some cur =>
    if s.buffer ≠ [] then
      (emitTextInChunks s.buffer ++ [.sectionEnd cur], ⟨[], none⟩)
    else ([], ⟨[], some cur⟩)
  | none => ([], ⟨[], none⟩)

/-- Feeding a list of fragments one by one to `process`. -/
def processAll (s : PState) : List Str → List Event × PState
  | [] => ([], s)
  | f :: rest =>
    let r := process s f
    let r2 := processAll r.2 rest
    (r.1 ++ r2.1, r2.2)

/-- The full run of one request against a fresh processor: feed every
fragment to `process`, then call `finalize`; collect all emitted events. -/
def runAll (frags : List Str) : List Event :=
  let r := processAll ⟨[], none⟩ frags
  r.1 ++ (finalize r.2).1

/-- Is an event a `text_chunk`? -/
def isTextChunk : Event → Bool
  | .textChunk _ => true
  | _ => false

/-- The `section_start` / `section_end` skeleton of an event list. -/
def sectionEvents (es : List Event) : List Event :=
  es.filter fun e => !isTextChunk e

/-- The text carried by an event (empty for non-text events). -/
def textOf : Event → Str
  | .textChunk t => t
  | _ => []

/-- The concatenated text content of an event list. -/
def textConcat (es : List Event) : Str := (es.map textOf).flatten

/-- Replace every `text_chunk` by its 3-character re-chunking; the relation
between the two processor variants. -/
def expandChunks : List Event → List Event
  | [] => []
  | .textChunk t :: r => emitTextInChunks t ++ expandChunks r
  | e :: r => e :: expandChunks r

/-- Scanning check that `text_chunk` events appear only while a section is
open, tracking openness through the `section_start` / `section_end` events
of the list itself, starting from a given openness state. -/
def chunksOpenOnly : Option MSection → List Event → Bool
  | _, [] => true
  | sec, .textChunk _ :: r => sec.isSome && chunksOpenOnly sec r
  | _, .sectionStart s :: r => chunksOpenOnly (some s) r
  | _, .sectionEnd _ :: r => chunksOpenOnly none r

/-- The openness state after scanning an event list. -/
def trackSec : Option MSection → List Event → Option MSection
  | sec, [] => sec
  | sec, .textChunk _ :: r => trackSec sec r
  | _, .sectionStart s :: r => trackSec (some s) r
  | _, .sectionEnd _ :: r => trackSec none r

/-- Every `text_chunk` of the list has at most 3 characters. -/
def allChunksSmall (es : List Event) : Bool :=
  es.all fun e =>
    match e with
    | .textChunk t => decide (t.length ≤ 3)
    | _ => true

/-- Status carried by a terminal `done` payload. -/
inductive DoneStatus
  | completed
  | failed
deriving DecidableEq, Repr

/-- Terminal signal of an upstream observable stream: natural completion or
an error carrying a message. -/
inductive Outcome
  | completed
  | errored (message : String)
deriving DecidableEq, Repr

/-- The generic response envelope (class `ApiResponse<T>` of
`api-response.dto.ts`): a code, a message and a nullable data field. -/
structure ApiResponse (α : Type) where
  code : String
  message : String
  data : Option α
deriving DecidableEq, Repr

/-- `ApiResponse.success(data, message, code)` (defaults `'Success'` / `'0'`
written out explicitly at every call site below). -/
def ApiResponse.success {α : Type} (data : α) (message : String)
    (code : String) : ApiResponse α :=
  ⟨code, message, some data⟩

/-- `ApiResponse.error(message, code, data)`. -/
def ApiResponse.error {α : Type} (message : String) (code : String)
    (data : Option α) : ApiResponse α :=
  ⟨code, message, data⟩

/-- `StreamEventPayload` (`stream-event-payload.dto.ts`): a `type` tag and a
payload whose shape depends on the tag.  The V1 providers build these by
parsing JSON lines of the model output and forward them verbatim, so the
tag is an arbitrary string; the payload shapes relevant here are a done
status, an error message, and anything else (opaque). -/
inductive PayloadVal
  | status (s : DoneStatus)
  | message (m : String)
  | other (tag : String)
deriving DecidableEq, Repr

/-- See `PayloadVal`. -/
structure StreamEventPayload where
  type : String
  payload : PayloadVal
deriving DecidableEq, Repr

/-- The terminal envelope appended by `endWith` in
`TranslateService.generateStream` (`translate.service.ts`, lines 125-131). -/
def doneEnvelopeV1 : ApiResponse StreamEventPayload :=
  ApiResponse.success ⟨"done", .status .completed⟩ "Stream ended" "0"

/-- `TranslateService.generateStream` (`translate.service.ts`, lines
99-132), as a function of the provider events delivered before the terminal
signal and of that signal.  Rxjs semantics of the pipe: `map` wraps each
event in a success envelope; on error `catchError` switches to
`of(errorResponse)`, which emits one envelope and then completes; `endWith`
appends its envelope when the (possibly recovered) stream completes — hence
on the error path as well. -/
def generateStream (events : List StreamEventPayload) (out : Outcome) :
    List (ApiResponse StreamEventPayload) :=
  (events.map fun e => ApiResponse.success e "" "0") ++
    match out with
    | .completed => [doneEnvelopeV1]
    | .errored msg =>
      [ApiResponse.error msg "STREAM_ERROR" (some ⟨"error", .message msg⟩),
       doneEnvelopeV1]

/-- `ApiResponseV2Data` of the subject-based `TranslateServiceV2`
(`translate.service.v2.ts`, second variant, lines 335-339). -/
inductive ApiResponseV2Data
  | text_chunk (text : Str)
  | error (message : String)
  | done (status : DoneStatus)
deriving DecidableEq, Repr

/-- `TranslateServiceV2.generateStreamV2` (subject-based variant, lines
453-538): raw chunks are forwarded as `text_chunk` envelopes (empty chunks
skipped); on completion the `finalize` operator pushes `done(completed)`
(`streamErrored` is false) and completes the subject; on error `catchError`
sets `streamErrored`, pushes the error envelope and `done(failed)` and
completes the subject, after which the `finalize` callback pushes nothing
(its guard sees `streamErrored = true`, and the subject is stopped). -/
def generateStreamV2 (chunks : List Str) (out : Outcome) :
    List (ApiResponse ApiResponseV2Data) :=
  ((chunks.filter fun c => !c.isEmpty).map fun c =>
    ApiResponse.success (ApiResponseV2Data.text_chunk c) "Success" "0") ++
    match out with
    | .completed =>
      [ApiResponse.success (ApiResponseV2Data.done .completed)
        "Stream ended" "0"]
    | .errored msg =>
      [ApiResponse.error msg "STREAM_GENERATION_ERROR"
        (some (ApiResponseV2Data.error msg)),
       ApiResponse.success (ApiResponseV2Data.done .failed)
        "Stream ended with error" "0"]

/-- Does a V1 envelope carry a `done` event (type `done`, status payload)? -/
def isDoneV1 (e : ApiResponse StreamEventPayload) : Bool :=
  match e.data with
  | some p =>
    p.type == "done" &&
      (match p.payload with
       | .status _ => true
       | _ => false)
  | none => false

/-- Number of `done` envelopes in a V1 stream. -/
def countDoneV1 (es : List (ApiResponse StreamEventPayload)) : Nat :=
  (es.filter isDoneV1).length

/-- Does a V2 envelope carry a `done` event? -/
def isDoneV2 (e : ApiResponse ApiResponseV2Data) : Bool :=
  match e.data with
  | some (ApiResponseV2Data.done _) => true
  | _ => false

/-- Number of `done` envelopes in a V2 stream. -/
def countDoneV2 (es : List (ApiResponse ApiResponseV2Data)) : Nat :=
  (es.filter isDoneV2).length

/-- `AnalysisInfoPayload` (`translate.service.v2.ts`, first variant, lines
17-20); its fields are opaque to the streaming logic. -/
structure AnalysisInfoPayload where
  inputType : String
  sourceText : String
deriving DecidableEq, Repr

/-- Event payloads of the mergeMap-based `TranslateServiceV2`
(first variant, lines 10-14), restricted to the constructors that variant
emits inside `mergeMap`. -/
inductive V2MData
  | analysis_info (p : AnalysisInfoPayload)
  | text_chunk (t : Str)
deriving DecidableEq, Repr

/-- `'[ANALYSIS_INFO_START]'` (line 177). -/
def ANALYSIS_START_MARKER : Str := "[ANALYSIS_INFO_START]".toList

/-- `'[ANALYSIS_INFO_END]'` (line 178). -/
def ANALYSIS_END_MARKER : Str := "[ANALYSIS_INFO_END]".toList

/-- `'[STREAM_END]'` (line 241). -/
def STREAM_END_V2 : Str := "[STREAM_END]".toList

/-- JavaScript `s.substring(a, b)`: the bounds are swapped when `a > b` and
clamped to the length. -/
def jsSubstring (s : Str) (a b : Nat) : Str :=
  (s.take (max a b)).drop (min a b)

/-- JavaScript `s.trim()` on the ASCII content used here. -/
def jsTrim (s : Str) : Str :=
  ((s.dropWhile Char.isWhitespace).reverse.dropWhile Char.isWhitespace).reverse

/-- State captured by the mergeMap closure (lines 175-176):
`analysisInfoSent` and `analysisBuffer`. -/
structure MMState where
  analysisInfoSent : Bool
  analysisBuffer : Str
deriving DecidableEq, Repr

/-- Text forwarding for one chunk (lines 239-261): cut the text at a
`[STREAM_END]` marker if present, and emit what remains as a single
`text_chunk` envelope when nonempty. -/
def mmTextEvents (chunk : Str) : List (ApiResponse V2MData) :=
  if chunk ≠ [] then
    let textToSend :=
      match indexOfSub STREAM_END_V2 chunk with
      | some i => chunk.take i
      | none => chunk
    if textToSend ≠ [] then
      [ApiResponse.success (V2MData.text_chunk textToSend) "" "0"]
    else []
  else []

/-- One `mergeMap` step of the first `TranslateServiceV2.generateStreamV2`
variant (lines 181-264): before the analysis info is sent, buffer chunks
until both `[ANALYSIS_INFO_*]` markers are visible (with a 500-character
safety valve); then decode the span between the markers and emit it as an
`analysis_info` envelope, or, when decoding fails, forward the whole
buffer as text; afterwards forward chunks as plain text.  `decode` stands for the
platform builtin `JSON.parse` composed with the `AnalysisInfoPayload`
interpretation: it returns `none` when parsing throws. -/
def v2MergeMapStep (decode : Str → Option AnalysisInfoPayload)
    (st : MMState) (chunk0 : Str) : List (ApiResponse V2MData) × MMState :=
  if st.analysisInfoSent = false then
    let buf := st.analysisBuffer ++ chunk0
    match indexOfSub ANALYSIS_START_MARKER buf,
        indexOfSub ANALYSIS_END_MARKER buf with
    | some s, some e =>
      if s < e then
        let jsonStr :=
          jsTrim (jsSubstring buf (s + ANALYSIS_START_MARKER.length) e)
        match decode jsonStr with
        | some p =>
          (ApiResponse.success (V2MData.analysis_info p)
              "Analysis info extracted" "0" ::
            mmTextEvents (buf.drop (e + ANALYSIS_END_MARKER.length)),
           ⟨true, []⟩)
        | none => (mmTextEvents buf, ⟨true, []⟩)
      else if buf.length > 500 then (mmTextEvents buf, ⟨true, []⟩)
      else ([], ⟨false, buf⟩)
    | _, _ =>
      if buf.length > 500 then (mmTextEvents buf, ⟨true, []⟩)
      else ([], ⟨false, buf⟩)
  else (mmTextEvents chunk0, st)

/-- Nonemptiness of every marker. -/
theorem markerStr_ne_nil (m : Marker) : markerStr m ≠ [] := by
  cases m <;> rename_i s <;> cases s <;> decide

/-- `findFirstMarker` finds nothing in the empty buffer. -/
theorem findFirstMarker_nil : findFirstMarker [] = none := by decide

/-- Occurrence semantics of `indexOfSub`: a returned index carries an
occurrence, and no occurrence exists strictly before it. -/
theorem indexOfSub_sound {p hay : Str} {i : Nat}
    (h : indexOfSub p hay = some i) :
    p <+: hay.drop i ∧ ∀ j, j < i → ¬ p <+: hay.drop j := by
  induction hay generalizing i with
  | nil =>
    unfold indexOfSub at h
    by_cases hp : p.isPrefixOf [] = true
    · simp [hp] at h
      subst h
      refine ⟨?_, by omega⟩
      simpa using (List.isPrefixOf_iff_prefix.mp hp)
    · simp [hp] at h
  | cons c t ih =>
    unfold indexOfSub at h
    by_cases hp : p.isPrefixOf (c :: t) = true
    · simp [hp] at h
      subst h
      refine ⟨by simpa using List.isPrefixOf_iff_prefix.mp hp, by omega⟩
    · simp [hp] at h
      obtain ⟨i0, hi0, rfl⟩ := h
      obtain ⟨hocc, hmin⟩ := ih hi0
      refine ⟨by simpa using hocc, ?_⟩
      intro j hj
      cases j with
      | zero =>
        intro hpre
        exact hp (List.isPrefixOf_iff_prefix.mpr (by simpa using hpre))
      | succ j0 =>
        intro hpre
        exact hmin j0 (by omega) (by simpa using hpre)

/-- Occurrence semantics of `indexOfSub`: an occurrence at `i` forces a
result at some index `≤ i`. -/
theorem indexOfSub_exists {p hay : Str} {i : Nat}
    (h : p <+: hay.drop i) :
    ∃ i', i' ≤ i ∧ indexOfSub p hay = some i' := by
  induction hay generalizing i with
  | nil =>
    simp at h
    subst h
    exact ⟨0, Nat.zero_le _, by simp [indexOfSub]⟩
  | cons c t ih =>
    by_cases hp : p.isPrefixOf (c :: t) = true
    · exact ⟨0, Nat.zero_le _, by simp [indexOfSub, hp]⟩
    · cases i with
      | zero =>
        simp at h
        exact absurd (List.isPrefixOf_iff_prefix.mpr h) (by simpa using hp)
      | succ i0 =>
        simp at h
        obtain ⟨i', hle, hidx⟩ := ih h
        exact ⟨i' + 1, by omega, by simp [indexOfSub, hp, hidx]⟩

/-- A returned index never exceeds the text length. -/
theorem indexOfSub_le {p hay : Str} {i : Nat}
    (h : indexOfSub p hay = some i) : i ≤ hay.length := by
  induction hay generalizing i with
  | nil =>
    unfold indexOfSub at h
    by_cases hp : p.isPrefixOf [] = true
    · simp [hp] at h; omega
    · simp [hp] at h
  | cons c t ih =>
    unfold indexOfSub at h
    by_cases hp : p.isPrefixOf (c :: t) = true
    · simp [hp] at h; omega
    · simp [hp] at h
      obtain ⟨i0, hi0, rfl⟩ := h
      have := ih hi0
      simp
      omega

/-- An occurrence returned by `indexOfSub` lies inside the text. -/
theorem indexOfSub_le_length {p hay : Str} {i : Nat}
    (h : indexOfSub p hay = some i) : i + p.length ≤ hay.length := by
  have hocc := (indexOfSub_sound h).1
  have h1 := hocc.length_le
  have h2 := indexOfSub_le h
  simp at h1
  omega

/-- Soundness of the scanning fold: a produced candidate is an
`indexOfSub` hit. -/
theorem foldl_findStep_sound {text : Str} (ms : List Marker) :
    ∀ (acc : Option (Marker × Nat)),
      (∀ p, acc = some p → indexOfSub (markerStr p.1) text = some p.2) →
      ∀ p, ms.foldl (findStep text) acc = some p →
        indexOfSub (markerStr p.1) text = some p.2 := by
  induction ms with
  | nil => exact fun acc hacc p h => hacc p h
  | cons m0 rest ih =>
    intro acc hacc p h
    refine ih _ ?_ p h
    intro q hq
    unfold findStep at hq
    cases hidx : indexOfSub (markerStr m0) text with
    | none => rw [hidx] at hq; exact hacc q hq
    | some i0 =>
      rw [hidx] at hq
      cases hacc0 : acc with
      | none => rw [hacc0] at hq; cases hq; simpa using hidx
      | some r =>
        obtain ⟨rm, rj⟩ := r
        rw [hacc0] at hq
        by_cases hlt : i0 < rj
        · simp [hlt] at hq
          cases hq; simpa using hidx
        · simp [hlt] at hq
          cases hq; exact hacc _ hacc0

/-- Minimality of the scanning fold: the produced index is at most every
other marker's `indexOfSub` index and at most the accumulator's index. -/
theorem foldl_findStep_min {text : Str} (ms : List Marker) :
    ∀ (acc : Option (Marker × Nat)) (m : Marker) (i : Nat),
      ms.foldl (findStep text) acc = some (m, i) →
      (∀ m' ∈ ms, ∀ i', indexOfSub (markerStr m') text = some i' → i ≤ i') ∧
      (∀ p, acc = some p → i ≤ p.2) := by
  induction ms with
  | nil =>
    intro acc m i h
    simp at h
    refine ⟨by simp, ?_⟩
    intro p hp
    rw [hp] at h
    cases h
    exact Nat.le_refl _
  | cons m0 rest ih =>
    intro acc m i h
    simp only [List.foldl_cons] at h
    obtain ⟨hrest, haccb⟩ := ih (findStep text acc m0) m i h
    constructor
    · intro m' hm' i' hidx'
      rcases List.mem_cons.mp hm' with rfl | hmem
      · -- the head marker: analyse the step taken for it
        unfold findStep at haccb
        rw [hidx'] at haccb
        cases hacc0 : acc with
        | none =>
          rw [hacc0] at haccb
          exact haccb _ rfl
        | some r =>
          obtain ⟨rm, rj⟩ := r
          rw [hacc0] at haccb
          by_cases hlt : i' < rj
          · simp only [if_pos hlt] at haccb
            exact haccb _ rfl
          · simp only [if_neg hlt] at haccb
            have := haccb _ rfl
            simp at this
            omega
      · exact hrest m' hmem i' hidx'
    · intro p hp
      obtain ⟨pm, pj⟩ := p
      unfold findStep at haccb
      cases hidx0 : indexOfSub (markerStr m0) text with
      | none =>
        rw [hidx0, hp] at haccb
        exact haccb _ rfl
      | some i0 =>
        rw [hidx0, hp] at haccb
        by_cases hlt : i0 < pj
        · simp only [if_pos hlt] at haccb
          have := haccb _ rfl
          simp at this
          show i ≤ pj
          omega
        · simp only [if_neg hlt] at haccb
          exact haccb _ rfl

/-- A `none` result of the scanning fold means the accumulator was empty and
no scanned marker occurs at all. -/
theorem foldl_findStep_none {text : Str} (ms : List Marker) :
    ∀ (acc : Option (Marker × Nat)),
      ms.foldl (findStep text) acc = none →
      acc = none ∧ ∀ m ∈ ms, indexOfSub (markerStr m) text = none := by
  induction ms with
  | nil => exact fun acc h => ⟨by simpa using h, by simp⟩
  | cons m0 rest ih =>
    intro acc h
    simp only [List.foldl_cons] at h
    obtain ⟨hstep, hrest⟩ := ih _ h
    unfold findStep at hstep
    cases hidx : indexOfSub (markerStr m0) text with
    | none =>
      rw [hidx] at hstep
      refine ⟨hstep, ?_⟩
      intro m hm
      rcases List.mem_cons.mp hm with rfl | hmem
      · exact hidx
      · exact hrest m hmem
    | some i0 =>
      rw [hidx] at hstep
      cases hacc0 : acc with
      | none => rw [hacc0] at hstep; cases hstep
      | some r =>
        obtain ⟨rm, rj⟩ := r
        rw [hacc0] at hstep
        by_cases hlt : i0 < rj <;> simp [hlt] at hstep

/-- Once the fold holds a minimal candidate, it keeps it. -/
theorem foldl_findStep_keep {text : Str} (ms : List Marker) (m : Marker)
    (i : Nat)
    (hmin : ∀ m' ∈ ms, ∀ i', indexOfSub (markerStr m') text = some i' →
      i ≤ i') :
    ms.foldl (findStep text) (some (m, i)) = some (m, i) := by
  induction ms with
  | nil => simp
  | cons m0 rest ih =>
    simp only [List.foldl_cons]
    have hstep : findStep text (some (m, i)) m0 = some (m, i) := by
      unfold findStep
      cases hidx : indexOfSub (markerStr m0) text with
      | none => rfl
      | some i0 =>
        have := hmin m0 (List.mem_cons_self _ _) i0 hidx
        simp [Nat.not_lt.mpr this]
    rw [hstep]
    exact ih fun m' hm' i' h => hmin m' (List.mem_cons_of_mem _ hm') i' h

/-- Completeness of the scanning fold: a marker occurring at a minimal index,
unique at that index, is returned. -/
theorem foldl_findStep_complete {text : Str} (ms : List Marker)
    (m : Marker) (i : Nat)
    (hidx : indexOfSub (markerStr m) text = some i)
    (hmin : ∀ m' ∈ ms, ∀ i', indexOfSub (markerStr m') text = some i' →
      i ≤ i')
    (hne : ∀ m' ∈ ms, indexOfSub (markerStr m') text = some i → m' = m) :
    ∀ acc, m ∈ ms → (∀ p, acc = some p → i < p.2 ∨ p = (m, i)) →
      ms.foldl (findStep text) acc = some (m, i) := by
  induction ms with
  | nil => intro acc hm; cases hm
  | cons m0 rest ih =>
    intro acc hm hacc
    simp only [List.foldl_cons]
    by_cases hm0 : m0 = m
    · subst hm0
      have hstep : findStep text acc m0 = some (m0, i) := by
        unfold findStep
        rw [hidx]
        cases hacc0 : acc with
        | none => rfl
        | some p =>
          obtain ⟨pm, pj⟩ := p
          rcases hacc _ hacc0 with hlt | heq
          · simp at hlt
            simp [hlt]
          · cases heq
            simp
      rw [hstep]
      exact foldl_findStep_keep rest m0 i
        fun m' hm' i' h => hmin m' (List.mem_cons_of_mem _ hm') i' h
    · have hmem : m ∈ rest := by
        rcases List.mem_cons.mp hm with rfl | hmem
        · exact absurd rfl hm0
        · exact hmem
      refine ih (fun m' hm' i' h => hmin m' (List.mem_cons_of_mem _ hm') i' h)
        (fun m' hm' h => hne m' (List.mem_cons_of_mem _ hm') h)
        (findStep text acc m0) hmem ?_
      intro p hp
      unfold findStep at hp
      cases hidx0 : indexOfSub (markerStr m0) text with
      | none => rw [hidx0] at hp; exact hacc p hp
      | some i0 =>
        have hi0 : i ≤ i0 := hmin m0 (List.mem_cons_self _ _) i0 hidx0
        have hne0 : i0 ≠ i := by
          intro heq
          exact hm0 (hne m0 (List.mem_cons_self _ _) (heq ▸ hidx0))
        rw [hidx0] at hp
        cases hacc0 : acc with
        | none =>
          rw [hacc0] at hp
          cases hp
          left
          omega
        | some r =>
          obtain ⟨rm, rj⟩ := r
          rw [hacc0] at hp
          by_cases hlt : i0 < rj
          · simp [hlt] at hp
            cases hp
            left
            omega
          · simp [hlt] at hp
            cases hp
            exact hacc _ hacc0

/-- Every marker is scanned by `findFirstMarker`. -/
theorem mem_allMarkers (m : Marker) : m ∈ allMarkers := by
  cases m <;> rename_i s <;> cases s <;> decide

/-- A `findFirstMarker` hit is an occurrence at the globally minimal index. -/
theorem findFirstMarker_sound {text : Str} {m : Marker} {i : Nat}
    (h : findFirstMarker text = some (m, i)) :
    indexOfSub (markerStr m) text = some i ∧
      ∀ (m' : Marker) (i' : Nat),
        indexOfSub (markerStr m') text = some i' → i ≤ i' := by
  refine ⟨foldl_findStep_sound allMarkers none (by simp) (m, i) h, ?_⟩
  intro m' i' hidx'
  exact (foldl_findStep_min allMarkers none m i h).1 m' (mem_allMarkers m')
    i' hidx'

/-- A `none` result of `findFirstMarker` means no marker occurs at all. -/
theorem findFirstMarker_eq_none {text : Str}
    (h : findFirstMarker text = none) :
    ∀ m : Marker, indexOfSub (markerStr m) text = none := fun m =>
  (foldl_findStep_none allMarkers none h).2 m (mem_allMarkers m)

/-- Converse characterisation of `findFirstMarker`. -/
theorem findFirstMarker_complete {text : Str} {m : Marker} {i : Nat}
    (hidx : indexOfSub (markerStr m) text = some i)
    (hmin : ∀ (m' : Marker) (i' : Nat),
      indexOfSub (markerStr m') text = some i' → i ≤ i')
    (hne : ∀ m' : Marker, indexOfSub (markerStr m') text = some i → m' = m) :
    findFirstMarker text = some (m, i) :=
  foldl_findStep_complete allMarkers m i hidx
    (fun m' _ i' h => hmin m' i' h) (fun m' _ h => hne m' h)
    none (mem_allMarkers m) (by simp)

/-- Faithfulness of the `Marker` constructors to the source's
`isStart = marker.endsWith('_START]')` tag in `findFirstMarker`: a marker
ends in `_START]` exactly when it is one of the keys of `SectionNames`. -/
theorem marker_isStart_endsWith :
    ∀ m : Marker,
      ("_START]".toList).isSuffixOf (markerStr m) =
        (match m with
         | .start _ => true
         | .close _ => false) := by
  decide

/-- Shape of every marker: it ends in `']'` and contains no `']'` earlier.
(Between its brackets a marker holds only capital letters and underscores.) -/
theorem marker_shape (m : Marker) :
    (']' : Char) ∈ markerStr m ∧ ∀ c ∈ (markerStr m).dropLast, c ≠ ']' := by
  cases m <;> rename_i s <;> cases s <;> decide

/-- No marker is a prefix of a different marker. -/
theorem marker_not_pfx :
    ∀ m m' : Marker, markerStr m <+: markerStr m' → m = m' := by decide

/-- Two markers cannot occur at the same index: the marker alphabet has no
marker that is a prefix of another. -/
theorem markers_no_tie {text : Str} {m m' : Marker} {i : Nat}
    (h : indexOfSub (markerStr m) text = some i)
    (h' : indexOfSub (markerStr m') text = some i) : m' = m := by
  have o := (indexOfSub_sound h).1
  have o' := (indexOfSub_sound h').1
  rcases Nat.le_total (markerStr m').length (markerStr m).length with hl | hl
  · exact marker_not_pfx m' m (List.prefix_of_prefix_length_le o' o hl)
  · exact (marker_not_pfx m m' (List.prefix_of_prefix_length_le o o' hl)).symm

/-- A complete marker never fits inside a proper prefix of a marker: a
proper prefix contains no `']'`, but every complete marker ends in one. -/
theorem no_marker_inside_partial {m m' : Marker} {p : Str} {k : Nat}
    (hpfx : p <+: markerStr m') (hlt : p.length < (markerStr m').length)
    (hocc : markerStr m <+: p.drop k) : False := by
  have hmem : (']' : Char) ∈ p.drop k := hocc.subset (marker_shape m).1
  have hmemp : (']' : Char) ∈ p := List.drop_subset _ _ hmem
  have hpd : p <+: (markerStr m').dropLast := by
    rw [List.dropLast_eq_take]
    exact List.prefix_take_iff.mpr ⟨hpfx, by omega⟩
  exact (marker_shape m').2 _ (hpd.subset hmemp) rfl

/-- Appending text on the right does not change the first marker found: a
complete earliest occurrence in `buf` stays the earliest in `buf ++ extra`,
because neither a new complete occurrence nor a straddling one can begin
before it. -/
theorem findFirstMarker_append {buf extra : Str} {m : Marker} {i : Nat}
    (h : findFirstMarker buf = some (m, i)) :
    findFirstMarker (buf ++ extra) = some (m, i) := by
  obtain ⟨hidx, hmin⟩ := findFirstMarker_sound h
  have hocc : markerStr m <+: buf.drop i := (indexOfSub_sound hidx).1
  have hfit : i + (markerStr m).length ≤ buf.length := indexOfSub_le_length hidx
  have hmlen : 0 < (markerStr m).length :=
    List.length_pos.mpr (markerStr_ne_nil m)
  have hocc2 : markerStr m <+: (buf ++ extra).drop i := by
    rw [List.drop_append_of_le_length (by omega)]
    exact hocc.trans (List.prefix_append _ _)
  have hkey : ∀ (m' : Marker) (j : Nat), j < i →
      ¬ markerStr m' <+: (buf ++ extra).drop j := by
    intro m' j hj hocc'
    have hjb : j ≤ buf.length := by omega
    rw [List.drop_append_of_le_length hjb] at hocc'
    by_cases hcase : j + (markerStr m').length ≤ buf.length
    · -- the would-be occurrence lies wholly inside `buf`
      have hin : markerStr m' <+: buf.drop j :=
        List.prefix_of_prefix_length_le hocc'
          (List.prefix_append _ _) (by simp; omega)
      obtain ⟨j', hj'le, hidxj⟩ := indexOfSub_exists hin
      have := hmin m' j' hidxj
      omega
    · -- the would-be occurrence straddles the boundary
      have hplen : (buf.drop j).length < (markerStr m').length := by
        simp
        omega
      have hppfx : buf.drop j <+: markerStr m' :=
        List.prefix_of_prefix_length_le (List.prefix_append _ _) hocc'
          (Nat.le_of_lt hplen)
      have hocc_in : markerStr m <+: (buf.drop j).drop (i - j) := by
        rw [List.drop_drop, (by omega : j + (i - j) = i)]
        exact hocc
      exact no_marker_inside_partial hppfx hplen hocc_in
  have hmin2 : ∀ (m' : Marker) (i' : Nat),
      indexOfSub (markerStr m') (buf ++ extra) = some i' → i ≤ i' := by
    intro m' i' hidx'
    by_contra hlt
    exact hkey m' i' (by omega) (indexOfSub_sound hidx').1
  have hidx2 : indexOfSub (markerStr m) (buf ++ extra) = some i := by
    obtain ⟨i'', hle, hidx''⟩ := indexOfSub_exists hocc2
    have hge := hmin2 m i'' hidx''
    have : i'' = i := by omega
    exact this ▸ hidx''
  exact findFirstMarker_complete hidx2 hmin2
    fun m' h' => markers_no_tie hidx2 h'

/-- Unfolding of `processLoop` when no marker is in the buffer. -/
theorem processLoop_eq_none {buf : Str} {sec : Option MSection}
    (h : findFirstMarker buf = none) :
    processLoop buf sec = ([], buf, sec) := by
  unfold processLoop
  split
  · rfl
  · rename_i m i heq
    rw [h] at heq
    cases heq

/-- Unfolding of `processLoop` at a found marker. -/
theorem processLoop_eq_some {buf : Str} {sec : Option MSection} {m : Marker}
    {i : Nat} (h : findFirstMarker buf = some (m, i)) :
    processLoop buf sec =
      ((if buf.take i ≠ [] ∧ sec.isSome then [Event.textChunk (buf.take i)]
          else []) ++ (handleMarker m sec).1 ++
        (processLoop (buf.drop (i + (markerStr m).length))
          (handleMarker m sec).2).1,
       (processLoop (buf.drop (i + (markerStr m).length))
          (handleMarker m sec).2).2) := by
  conv_lhs => rw [processLoop]
  split
  · rename_i heq
    rw [h] at heq
    cases heq
  · rename_i m' i' heq
    rw [h] at heq
    injection heq with heq2
    injection heq2 with hm hi
    subst hm
    subst hi
    rfl

/-- Unfolding of `processLoopChunked` when no marker is in the buffer. -/
theorem processLoopChunked_eq_none {buf : Str} {sec : Option MSection}
    (h : findFirstMarker buf = none) :
    processLoopChunked buf sec = ([], buf, sec) := by
  unfold processLoopChunked
  split
  · rfl
  · rename_i m i heq
    rw [h] at heq
    cases heq

/-- Unfolding of `processLoopChunked` at a found marker. -/
theorem processLoopChunked_eq_some {buf : Str} {sec : Option MSection}
    {m : Marker} {i : Nat} (h : findFirstMarker buf = some (m, i)) :
    processLoopChunked buf sec =
      ((if buf.take i ≠ [] ∧ sec.isSome then emitTextInChunks (buf.take i)
          else []) ++ (handleMarker m sec).1 ++
        (processLoopChunked (buf.drop (i + (markerStr m).length))
          (handleMarker m sec).2).1,
       (processLoopChunked (buf.drop (i + (markerStr m).length))
          (handleMarker m sec).2).2) := by
  conv_lhs => rw [processLoopChunked]
  split
  · rename_i heq
    rw [h] at heq
    cases heq
  · rename_i m' i' heq
    rw [h] at heq
    injection heq with heq2
    injection heq2 with hm hi
    subst hm
    subst hi
    rfl

/-- The residual buffer of the marker loop contains no marker. -/
theorem processLoop_residual (n : Nat) :
    ∀ (buf : Str) (sec : Option MSection), buf.length = n →
      findFirstMarker (processLoop buf sec).2.1 = none := by
  induction n using Nat.strong_induction_on with
  | _ n ih =>
    intro buf sec hlen
    cases h : findFirstMarker buf with
    | none => rw [processLoop_eq_none h]; exact h
    | some p =>
      obtain ⟨m, i⟩ := p
      have hfit : i + (markerStr m).length ≤ buf.length :=
        indexOfSub_le_length (findFirstMarker_sound h).1
      have hmlen : 0 < (markerStr m).length :=
        List.length_pos.mpr (markerStr_ne_nil m)
      rw [processLoop_eq_some h]
      exact ih (buf.drop (i + (markerStr m).length)).length
        (by simp; omega) _ _ rfl

/-- Fusion law of the marker loop: running the loop on `buf ++ extra` is
running it on `buf`, then on the residual buffer extended by `extra`.  It
holds because appending on the right disturbs neither the earliest marker
(`findFirstMarker_append`) nor the text before it. -/
theorem processLoop_append_aux (n : Nat) :
    ∀ (buf extra : Str) (sec : Option MSection), buf.length = n →
      processLoop (buf ++ extra) sec =
        ((processLoop buf sec).1 ++
          (processLoop ((processLoop buf sec).2.1 ++ extra)
            (processLoop buf sec).2.2).1,
         (processLoop ((processLoop buf sec).2.1 ++ extra)
            (processLoop buf sec).2.2).2) := by
  induction n using Nat.strong_induction_on with
  | _ n ih =>
    intro buf extra sec hlen
    cases h : findFirstMarker buf with
    | none =>
      rw [processLoop_eq_none h]
      simp
    | some p =>
      obtain ⟨m, i⟩ := p
      have hfit : i + (markerStr m).length ≤ buf.length :=
        indexOfSub_le_length (findFirstMarker_sound h).1
      have hmlen : 0 < (markerStr m).length :=
        List.length_pos.mpr (markerStr_ne_nil m)
      have h2 : findFirstMarker (buf ++ extra) = some (m, i) :=
        findFirstMarker_append h
      rw [processLoop_eq_some h, processLoop_eq_some h2]
      rw [List.take_append_of_le_length (by omega),
        List.drop_append_of_le_length (by omega)]
      rw [ih (buf.drop (i + (markerStr m).length)).length (by simp; omega)
        _ extra _ rfl]
      simp

/-- Fusion law at the `process` level. -/
theorem process_append (s : PState) (a b : Str) :
    process s (a ++ b) =
      ((process s a).1 ++ (process (process s a).2 b).1,
       (process (process s a).2 b).2) := by
  unfold process
  simp only []
  rw [← List.append_assoc]
  exact congrArg (fun r => (r.1, PState.mk r.2.1 r.2.2))
    (processLoop_append_aux (s.buffer ++ a).length (s.buffer ++ a) b
      s.currentSection rfl)

/-- Processing the empty chunk from a marker-free buffer is a no-op. -/
theorem process_nil {s : PState}
    (h : findFirstMarker s.buffer = none) : process s [] = ([], s) := by
  unfold process
  rw [List.append_nil, processLoop_eq_none h]

/-- The buffer left by `process` is marker-free. -/
theorem process_residual (s : PState) (chunk : Str) :
    findFirstMarker (process s chunk).2.buffer = none :=
  processLoop_residual (s.buffer ++ chunk).length _ _ rfl

/-- Feeding fragments one by one equals processing their concatenation in a
single call, from any marker-free state. -/
theorem processAll_flatten :
    ∀ (frags : List Str) (s : PState), findFirstMarker s.buffer = none →
      processAll s frags = process s frags.flatten := by
  intro frags
  induction frags with
  | nil =>
    intro s hs
    simp only [processAll, List.flatten_nil]
    exact (process_nil hs).symm
  | cons f rest ih =>
    intro s hs
    simp only [processAll, List.flatten_cons]
    rw [process_append s f rest.flatten]
    rw [ih (process s f).2 (process_residual s f)]

/-- The full run depends on the fragments only through their
concatenation. -/
theorem runAll_eq_flatten (frags : List Str) :
    runAll frags =
      (process ⟨[], none⟩ frags.flatten).1 ++
        (finalize (process ⟨[], none⟩ frags.flatten).2).1 := by
  unfold runAll
  rw [processAll_flatten frags ⟨[], none⟩ (by decide)]

/-- Openness checking distributes over appending, threading the tracked
state. -/
theorem chunksOpenOnly_append :
    ∀ (a b : List Event) (sec : Option MSection),
      chunksOpenOnly sec (a ++ b) =
        (chunksOpenOnly sec a && chunksOpenOnly (trackSec sec a) b) := by
  intro a
  induction a with
  | nil => intro b sec; simp [chunksOpenOnly, trackSec]
  | cons e r ih =>
    intro b sec
    cases e <;> simp [chunksOpenOnly, trackSec, ih, Bool.and_assoc]

/-- State tracking distributes over appending. -/
theorem trackSec_append :
    ∀ (a b : List Event) (sec : Option MSection),
      trackSec sec (a ++ b) = trackSec (trackSec sec a) b := by
  intro a
  induction a with
  | nil => intro b sec; simp [trackSec]
  | cons e r ih =>
    intro b sec
    cases e <;> simp [trackSec, ih]

/-- The events of `handleMarker` respect openness and track the section it
returns. -/
theorem handleMarker_track (m : Marker) (sec : Option MSection) :
    chunksOpenOnly sec (handleMarker m sec).1 = true ∧
      trackSec sec (handleMarker m sec).1 = (handleMarker m sec).2 := by
  cases m with
  | start s => cases sec <;> simp [handleMarker, chunksOpenOnly, trackSec]
  | close s =>
    by_cases h : sec = some s <;>
      simp [handleMarker, h, chunksOpenOnly, trackSec]

/-- `handleMarker` emits no `text_chunk` events. -/
theorem expandChunks_handleMarker (m : Marker) (sec : Option MSection) :
    expandChunks (handleMarker m sec).1 = (handleMarker m sec).1 := by
  cases m with
  | start s => cases sec <;> simp [handleMarker, expandChunks]
  | close s =>
    by_cases h : sec = some s <;> simp [handleMarker, h, expandChunks]

/-- The marker loop emits `text_chunk` events only while a section is open,
and its events track the section it returns. -/
theorem processLoop_chunksOpen (n : Nat) :
    ∀ (buf : Str) (sec : Option MSection), buf.length = n →
      chunksOpenOnly sec (processLoop buf sec).1 = true ∧
        trackSec sec (processLoop buf sec).1 = (processLoop buf sec).2.2 := by
  induction n using Nat.strong_induction_on with
  | _ n ih =>
    intro buf sec hlen
    cases h : findFirstMarker buf with
    | none => rw [processLoop_eq_none h]; exact ⟨rfl, rfl⟩
    | some p =>
      obtain ⟨m, i⟩ := p
      have hfit : i + (markerStr m).length ≤ buf.length :=
        indexOfSub_le_length (findFirstMarker_sound h).1
      have hmlen : 0 < (markerStr m).length :=
        List.length_pos.mpr (markerStr_ne_nil m)
      rw [processLoop_eq_some h]
      obtain ⟨ihopen, ihtrack⟩ :=
        ih (buf.drop (i + (markerStr m).length)).length (by simp; omega)
          _ (handleMarker m sec).2 rfl
      obtain ⟨hmopen, hmtrack⟩ := handleMarker_track m sec
      have htext_open :
          chunksOpenOnly sec
            (if buf.take i ≠ [] ∧ sec.isSome then
              [Event.textChunk (buf.take i)] else []) = true := by
        split
        · rename_i hcond
          simp [chunksOpenOnly, hcond.2]
        · rfl
      have htext_track :
          trackSec sec
            (if buf.take i ≠ [] ∧ sec.isSome then
              [Event.textChunk (buf.take i)] else []) = sec := by
        split <;> simp [trackSec]
      constructor
      · simp only [chunksOpenOnly_append, trackSec_append, htext_open,
          htext_track, hmopen, hmtrack, ihopen, Bool.true_and]
      · simp only [trackSec_append, htext_track, hmtrack, ihtrack]

/-- `finalize` emits `text_chunk` events only while a section is open. -/
theorem finalize_chunksOpen (s : PState) :
    chunksOpenOnly s.currentSection (finalize s).1 = true := by
  unfold finalize
  cases s.currentSection with
  | none => rfl
  | some cur =>
    by_cases h : s.buffer ≠ [] <;> simp [h, chunksOpenOnly]

/-- Re-chunking distributes over appending. -/
theorem expandChunks_append :
    ∀ a b : List Event, expandChunks (a ++ b) =
      expandChunks a ++ expandChunks b := by
  intro a
  induction a with
  | nil => simp [expandChunks]
  | cons e r ih =>
    intro b
    cases e <;> simp [expandChunks, ih]

/-- Unfolding of `textConcat` on a cons cell. -/
theorem textConcat_cons (e : Event) (l : List Event) :
    textConcat (e :: l) = textOf e ++ textConcat l := by
  simp [textConcat]

/-- The 3-character chunks reassemble to the original text. -/
theorem emitTextInChunks_textConcat :
    ∀ t : Str, textConcat (emitTextInChunks t) = t := by
  intro t
  induction t using emitTextInChunks.induct with
  | case1 => rw [emitTextInChunks]; rfl
  | case2 c rest ih =>
    rw [emitTextInChunks, textConcat_cons, ih]
    simp only [textOf]
    exact List.take_append_drop 3 (c :: rest)

/-- The 3-character chunks contain no section events. -/
theorem emitTextInChunks_sections :
    ∀ t : Str, sectionEvents (emitTextInChunks t) = [] := by
  intro t
  induction t using emitTextInChunks.induct with
  | case1 => rw [emitTextInChunks]; rfl
  | case2 c rest ih =>
    rw [emitTextInChunks]
    simpa [sectionEvents, isTextChunk] using ih

/-- Every emitted 3-character chunk indeed has at most 3 characters. -/
theorem emitTextInChunks_small :
    ∀ t : Str, allChunksSmall (emitTextInChunks t) = true := by
  intro t
  induction t using emitTextInChunks.induct with
  | case1 => rw [emitTextInChunks]; rfl
  | case2 c rest ih =>
    rw [emitTextInChunks]
    simp only [allChunksSmall, List.all_cons, Bool.and_eq_true] at ih ⊢
    constructor
    · simp [List.length_take]
    · exact ih

/-- The chunking marker loop is the plain marker loop with every
`text_chunk` re-chunked; buffers and sections coincide. -/
theorem processLoopChunked_eq_expand (n : Nat) :
    ∀ (buf : Str) (sec : Option MSection), buf.length = n →
      processLoopChunked buf sec =
        (expandChunks (processLoop buf sec).1, (processLoop buf sec).2) := by
  induction n using Nat.strong_induction_on with
  | _ n ih =>
    intro buf sec hlen
    cases h : findFirstMarker buf with
    | none =>
      rw [processLoopChunked_eq_none h, processLoop_eq_none h]
      rfl
    | some p =>
      obtain ⟨m, i⟩ := p
      have hfit : i + (markerStr m).length ≤ buf.length :=
        indexOfSub_le_length (findFirstMarker_sound h).1
      have hmlen : 0 < (markerStr m).length :=
        List.length_pos.mpr (markerStr_ne_nil m)
      rw [processLoopChunked_eq_some h, processLoop_eq_some h]
      rw [ih (buf.drop (i + (markerStr m).length)).length (by simp; omega)
        _ (handleMarker m sec).2 rfl]
      rw [expandChunks_append, expandChunks_append,
        expandChunks_handleMarker]
      have htext :
          expandChunks
            (if buf.take i ≠ [] ∧ sec.isSome then
              [Event.textChunk (buf.take i)] else []) =
          (if buf.take i ≠ [] ∧ sec.isSome then
            emitTextInChunks (buf.take i) else []) := by
        split <;> simp [expandChunks]
      rw [htext]

/-- The chunking `process` is the plain `process` with re-chunked text. -/
theorem processChunked_eq_expand (s : PState) (chunk : Str) :
    processChunked s chunk =
      (expandChunks (process s chunk).1, (process s chunk).2) := by
  unfold processChunked process
  rw [processLoopChunked_eq_expand (s.buffer ++ chunk).length _ _ rfl]

/-- The chunking `finalize` is the plain `finalize` with re-chunked text. -/
theorem finalizeChunked_eq_expand (s : PState) :
    finalizeChunked s =
      (expandChunks (finalize s).1, (finalize s).2) := by
  unfold finalizeChunked finalize
  cases s.currentSection with
  | none => rfl
  | some cur =>
    by_cases h : s.buffer ≠ [] <;> simp [h, expandChunks]

/-- The section-event skeleton distributes over appending. -/
theorem sectionEvents_append (a b : List Event) :
    sectionEvents (a ++ b) = sectionEvents a ++ sectionEvents b := by
  simp [sectionEvents]

/-- A `text_chunk` head is dropped from the section-event skeleton. -/
theorem sectionEvents_cons_text (t : Str) (l : List Event) :
    sectionEvents (.textChunk t :: l) = sectionEvents l := by
  simp [sectionEvents, isTextChunk]

/-- A non-text head stays in the section-event skeleton. -/
theorem sectionEvents_cons_nontext {e : Event}
    (h : isTextChunk e = false) (l : List Event) :
    sectionEvents (e :: l) = e :: sectionEvents l := by
  simp [sectionEvents, List.filter_cons, h]

/-- Re-chunking preserves the section-event skeleton. -/
theorem sectionEvents_expandChunks :
    ∀ es : List Event, sectionEvents (expandChunks es) = sectionEvents es := by
  intro es
  induction es with
  | nil => rfl
  | cons e r ih =>
    cases e with
    | textChunk t =>
      simp only [expandChunks]
      rw [sectionEvents_append, emitTextInChunks_sections, ih,
        sectionEvents_cons_text]
      rfl
    | sectionStart s =>
      simp only [expandChunks]
      rw [sectionEvents_cons_nontext
          (show isTextChunk (Event.sectionStart s) = false from rfl),
        sectionEvents_cons_nontext
          (show isTextChunk (Event.sectionStart s) = false from rfl), ih]
    | sectionEnd s =>
      simp only [expandChunks]
      rw [sectionEvents_cons_nontext
          (show isTextChunk (Event.sectionEnd s) = false from rfl),
        sectionEvents_cons_nontext
          (show isTextChunk (Event.sectionEnd s) = false from rfl), ih]

/-- Re-chunking preserves the concatenated text. -/
theorem textConcat_expandChunks :
    ∀ es : List Event, textConcat (expandChunks es) = textConcat es := by
  intro es
  induction es with
  | nil => rfl
  | cons e r ih =>
    cases e with
    | textChunk t =>
      simp only [expandChunks]
      rw [show textConcat (emitTextInChunks t ++ expandChunks r) =
        textConcat (emitTextInChunks t) ++ textConcat (expandChunks r) by
          simp [textConcat]]
      rw [emitTextInChunks_textConcat, ih, textConcat_cons]
      rfl
    | sectionStart s =>
      simp only [expandChunks]
      rw [textConcat_cons, textConcat_cons, ih]
    | sectionEnd s =>
      simp only [expandChunks]
      rw [textConcat_cons, textConcat_cons, ih]

/-- After re-chunking, every `text_chunk` has at most 3 characters. -/
theorem allChunksSmall_expandChunks :
    ∀ es : List Event, allChunksSmall (expandChunks es) = true := by
  intro es
  induction es with
  | nil => rfl
  | cons e r ih =>
    cases e with
    | textChunk t =>
      simp only [expandChunks, allChunksSmall, List.all_append,
        Bool.and_eq_true]
      exact ⟨by simpa [allChunksSmall] using emitTextInChunks_small t,
        by simpa [allChunksSmall] using ih⟩
    | sectionStart s =>
      simpa [expandChunks, allChunksSmall] using ih
    | sectionEnd s =>
      simpa [expandChunks, allChunksSmall] using ih

/-- Done-counting splits over appending (V2 envelopes). -/
theorem countDoneV2_append (a b : List (ApiResponse ApiResponseV2Data)) :
    countDoneV2 (a ++ b) = countDoneV2 a + countDoneV2 b := by
  simp [countDoneV2]

/-- Done-counting splits over appending (V1 envelopes). -/
theorem countDoneV1_append (a b : List (ApiResponse StreamEventPayload)) :
    countDoneV1 (a ++ b) = countDoneV1 a + countDoneV1 b := by
  simp [countDoneV1]

/-- Forwarded text chunks are never done envelopes. -/
theorem countDoneV2_text_envelopes (l : List Str) :
    countDoneV2 (l.map fun c =>
      ApiResponse.success (ApiResponseV2Data.text_chunk c) "Success" "0")
      = 0 := by
  induction l with
  | nil => rfl
  | cons c r ih =>
    simp only [List.map_cons, countDoneV2, List.filter_cons]
    exact ih

/-- Wrapped upstream events whose type is not `done` are not done
envelopes. -/
theorem countDoneV1_wrapped :
    ∀ events : List StreamEventPayload, (∀ e ∈ events, e.type ≠ "done") →
      countDoneV1 (events.map fun e => ApiResponse.success e "" "0") = 0 := by
  intro events
  induction events with
  | nil => intro _; rfl
  | cons e r ih =>
    intro h
    have hty : (e.type == "done") = false :=
      beq_eq_false_iff_ne.mpr (h e (List.mem_cons_self _ _))
    have ht : isDoneV1 (ApiResponse.success e "" "0") = false := by
      simp [isDoneV1, ApiResponse.success, hty]
    simp only [List.map_cons, countDoneV1, List.filter_cons, ht,
      Bool.false_eq_true, if_false]
    exact ih fun e' he' => h e' (List.mem_cons_of_mem _ he')

/-- C2 (counterexample): the claim that every envelope stream of the
service contains exactly one `done` envelope, which is last, fails for the
V1 service: provider events are wrapped verbatim, so an upstream event that
is itself a `done` payload (the V1 protocol even expects the model to end
with a `done` JSON line) yields a `done` envelope followed by the appended
terminal one — two `done` envelopes, the first of which is not last. -/
theorem c2_counterexample :
    countDoneV1 (generateStream [⟨"done", .status .completed⟩] .completed)
        = 2 ∧
      generateStream [⟨"done", .status .completed⟩] .completed =
        [ApiResponse.success ⟨"done", .status .completed⟩ "" "0",
         doneEnvelopeV1] := by
  constructor
  · rfl
  · rfl

/-- C2 (amended): the subject-based V2 service always emits exactly one
`done` envelope and it is the last envelope, on the success and the error
path alike; the V1 service does so as well provided no upstream event is
itself `done`-typed (upstream events are forwarded verbatim). -/
theorem c2_amended (chunks : List Str) (out : Outcome)
    (events : List StreamEventPayload)
    (h : ∀ e ∈ events, e.type ≠ "done") :
    countDoneV2 (generateStreamV2 chunks out) = 1 ∧
      (∃ e, (generateStreamV2 chunks out).getLast? = some e ∧
        isDoneV2 e = true) ∧
      countDoneV1 (generateStream events out) = 1 ∧
      (generateStream events out).getLast? = some doneEnvelopeV1 := by
  refine ⟨?_, ?_, ?_, ?_⟩
  · unfold generateStreamV2
    rw [countDoneV2_append, countDoneV2_text_envelopes]
    cases out <;> rfl
  · cases out with
    | completed =>
      refine ⟨ApiResponse.success (ApiResponseV2Data.done .completed)
        "Stream ended" "0", ?_, rfl⟩
      simp [generateStreamV2]
    | errored msg =>
      refine ⟨ApiResponse.success (ApiResponseV2Data.done .failed)
        "Stream ended with error" "0", ?_, rfl⟩
      simp [generateStreamV2]
  · unfold generateStream
    rw [countDoneV1_append, countDoneV1_wrapped events h]
    cases out <;> rfl
  · cases out <;> simp [generateStream]

/-- C2 (witness): the amended statement at a concrete request. -/
theorem c2_witness :
    (∀ e ∈ ([⟨"text_chunk", PayloadVal.other "x"⟩] :
        List StreamEventPayload), e.type ≠ "done") ∧
      countDoneV2 (generateStreamV2 [['h']] .completed) = 1 ∧
      countDoneV1
        (generateStream [⟨"text_chunk", PayloadVal.other "x"⟩] .completed)
        = 1 := by
  have h := c2_amended [['h']] Outcome.completed
    [⟨"text_chunk", PayloadVal.other "x"⟩] (by decide)
  exact ⟨by decide, h.1, h.2.2.1⟩

/-- C3 (code bug, evaluation at the failing input): when the upstream
stream fails after one event, the V1 service emits the error envelope and
then the `endWith` envelope `done(completed)` — not `done(failed)` — because
`catchError` recovers into a completing observable and `endWith` fires on
that completion; the subject-based V2 service at the same failing input
emits the error envelope immediately followed by `done(failed)`, as the
claim and the V1 source's own comment describe. -/
theorem c3_failing_input_eval :
    generateStream [⟨"text_chunk", .other "partial"⟩] (.errored "boom") =
        [ApiResponse.success ⟨"text_chunk", .other "partial"⟩ "" "0",
         ApiResponse.error "boom" "STREAM_ERROR"
           (some ⟨"error", .message "boom"⟩),
         ApiResponse.success ⟨"done", .status .completed⟩
           "Stream ended" "0"] ∧
      (generateStream [⟨"text_chunk", .other "partial"⟩]
          (.errored "boom")).getLast? =
        some (ApiResponse.success ⟨"done", .status .completed⟩
          "Stream ended" "0") ∧
      DoneStatus.completed ≠ DoneStatus.failed ∧
      generateStreamV2 [] (.errored "boom") =
        [ApiResponse.error "boom" "STREAM_GENERATION_ERROR"
           (some (ApiResponseV2Data.error "boom")),
         ApiResponse.success (ApiResponseV2Data.done .failed)
           "Stream ended with error" "0"] := by
  refine ⟨rfl, rfl, by decide, rfl⟩

/-- C8 (counterexample): when JSON decoding of the inline analysis span
fails (modelled by a `decode` that rejects the span content `notjson`, as
`JSON.parse` does), the whole buffered span — the `[ANALYSIS_INFO_*]`
markers included — is forwarded as a `text_chunk` envelope, not skipped as
the claim states. -/
theorem c8_counterexample :
    v2MergeMapStep (fun _ => none) ⟨false, []⟩
        ("[ANALYSIS_INFO_START]notjson[ANALYSIS_INFO_END]".toList) =
      ([ApiResponse.success
          (V2MData.text_chunk
            ("[ANALYSIS_INFO_START]notjson[ANALYSIS_INFO_END]".toList))
          "" "0"],
       ⟨true, []⟩) := by decide

/-- C8 (amended): when both markers of the inline span are visible in the
buffer, a successful decode emits the span as a single `analysis_info`
envelope (never as text) and resumes text forwarding after the end marker;
a failed decode does not terminate the request but forwards the whole
buffered span, markers included, as a `text_chunk` (it is logged, not
skipped); in both cases streaming continues, later chunks being forwarded
as plain text. -/
theorem c8_amended (decode : Str → Option AnalysisInfoPayload)
    (b c : Str) (s e : Nat) (p : AnalysisInfoPayload)
    (hs : indexOfSub ANALYSIS_START_MARKER (b ++ c) = some s)
    (he : indexOfSub ANALYSIS_END_MARKER (b ++ c) = some e)
    (hlt : s < e) :
    (decode (jsTrim (jsSubstring (b ++ c)
        (s + ANALYSIS_START_MARKER.length) e)) = some p →
      v2MergeMapStep decode ⟨false, b⟩ c =
        (ApiResponse.success (V2MData.analysis_info p)
            "Analysis info extracted" "0" ::
          mmTextEvents ((b ++ c).drop (e + ANALYSIS_END_MARKER.length)),
         ⟨true, []⟩)) ∧
    (decode (jsTrim (jsSubstring (b ++ c)
        (s + ANALYSIS_START_MARKER.length) e)) = none →
      v2MergeMapStep decode ⟨false, b⟩ c =
        (mmTextEvents (b ++ c), ⟨true, []⟩)) ∧
    (∀ st : MMState, st.analysisInfoSent = true → ∀ c' : Str,
      v2MergeMapStep decode st c' = (mmTextEvents c', st)) := by
  refine ⟨?_, ?_, ?_⟩
  · intro hdec
    unfold v2MergeMapStep
    simp only [hs, he, hdec, if_pos hlt]
    rfl
  · intro hdec
    unfold v2MergeMapStep
    simp only [hs, he, hdec, if_pos hlt]
    rfl
  · intro st hst c'
    unfold v2MergeMapStep
    simp [hst]

/-- C8 (witness): a concrete successful extraction, with a decoder that
accepts exactly the concrete span content. -/
theorem c8_witness :
    (indexOfSub ANALYSIS_START_MARKER
        (([] : Str) ++
          "[ANALYSIS_INFO_START] ok [ANALYSIS_INFO_END]rest".toList) =
      some 0) ∧
    (indexOfSub ANALYSIS_END_MARKER
        (([] : Str) ++
          "[ANALYSIS_INFO_START] ok [ANALYSIS_INFO_END]rest".toList) =
      some 25) ∧
    0 < 25 ∧
    v2MergeMapStep
        (fun j => if j = ("ok".toList : Str) then
          some ⟨"word_or_phrase", "ok"⟩ else none)
        ⟨false, []⟩
        ("[ANALYSIS_INFO_START] ok [ANALYSIS_INFO_END]rest".toList) =
      (ApiResponse.success
          (V2MData.analysis_info ⟨"word_or_phrase", "ok"⟩)
          "Analysis info extracted" "0" ::
        mmTextEvents ((([] : Str) ++
          "[ANALYSIS_INFO_START] ok [ANALYSIS_INFO_END]rest".toList).drop
            (25 + ANALYSIS_END_MARKER.length)),
       ⟨true, []⟩) := by
  refine ⟨by decide, by decide, by decide, ?_⟩
  exact (c8_amended
    (fun j => if j = ("ok".toList : Str) then
      some ⟨"word_or_phrase", "ok"⟩ else none)
    [] ("[ANALYSIS_INFO_START] ok [ANALYSIS_INFO_END]rest".toList)
    0 25 ⟨"word_or_phrase", "ok"⟩
    (by decide) (by decide) (by decide)).1 (by decide)

/-- C1: the full run of the plain processor (all fragments through
`process`, then `finalize`) depends only on the concatenation of the
fragments: any two fragmentations of the same complete input give the very
same event list — in particular the same `section_start` / `section_end`
skeleton in the same order and the same concatenated text (the plain
variant flushes text only at markers and at `finalize`, so even the
`text_chunk` boundaries agree). -/
theorem c1_fragmentation_invariance (f1 f2 : List Str)
    (h : f1.flatten = f2.flatten) :
    runAll f1 = runAll f2 ∧
      sectionEvents (runAll f1) = sectionEvents (runAll f2) ∧
      textConcat (runAll f1) = textConcat (runAll f2) := by
  have e : runAll f1 = runAll f2 := by
    rw [runAll_eq_flatten, runAll_eq_flatten, h]
  exact ⟨e, by rw [e], by rw [e]⟩

/-- C1 (witness): a marked-up input split in one piece versus three. -/
theorem c1_witness :
    (["[EXPLANATION_START]hi[EXPLANATION_END]".toList] : List Str).flatten =
        (["[EXPLANATION_".toList, "START]hi".toList,
          "[EXPLANATION_END]".toList] : List Str).flatten ∧
      runAll ["[EXPLANATION_START]hi[EXPLANATION_END]".toList] =
        runAll ["[EXPLANATION_".toList, "START]hi".toList,
          "[EXPLANATION_END]".toList] :=
  ⟨by decide, (c1_fragmentation_invariance _ _ (by decide)).1⟩

unseal processLoop in
/-- C4 (counterexample): with section `EXPLANATION` open and the fragment
`hello` — after which the buffer contains no marker — `process` emits
nothing at all and keeps the whole buffer, instead of emitting the buffer
as a `text_chunk` and clearing it as the claim states. -/
theorem c4_counterexample :
    process ⟨[], some .EXPLANATION⟩ ("hello".toList) =
      ([], ⟨"hello".toList, some .EXPLANATION⟩) := by decide

/-- C4 (amended): when, after appending the fragment, the buffer contains
no known marker, `process` emits no events and retains the entire buffer
(whether or not a section is open); buffered text is emitted only once a
later fragment completes a marker, or at `finalize`. -/
theorem c4_amended (s : PState) (chunk : Str)
    (h : findFirstMarker (s.buffer ++ chunk) = none) :
    process s chunk = ([], ⟨s.buffer ++ chunk, s.currentSection⟩) := by
  unfold process
  rw [processLoop_eq_none h]

/-- C4 (witness): the amended statement at the concrete counterexample
input. -/
theorem c4_witness :
    findFirstMarker (([] : Str) ++ "hello".toList) = none ∧
      process ⟨[], some .EXPLANATION⟩ ("hello".toList) =
        ([], ⟨([] : Str) ++ "hello".toList, some .EXPLANATION⟩) :=
  ⟨by decide, c4_amended ⟨[], some .EXPLANATION⟩ ("hello".toList)
    (by decide)⟩

/-- C5: in every event list produced by `process` or `finalize`, from any
state, a `text_chunk` occurs only while a section is open (tracking
openness from the state's current section through the emitted
`section_start` / `section_end` events); and `finalize` with no open
section emits nothing, whatever the buffered content. -/
theorem c5_chunks_only_in_section (s : PState) (chunk b : Str) :
    chunksOpenOnly s.currentSection (process s chunk).1 = true ∧
      chunksOpenOnly s.currentSection (finalize s).1 = true ∧
      (finalize ⟨b, none⟩).1 = [] := by
  refine ⟨?_, finalize_chunksOpen s, rfl⟩
  exact (processLoop_chunksOpen (s.buffer ++ chunk).length
    (s.buffer ++ chunk) s.currentSection rfl).1

/-- C6: whenever the first marker completed in the buffer is an open marker
for section `B` while section `A` is open, the returned event list is some
`text_chunk` events followed by `section_end A` immediately followed by
`section_start B`; and handling that marker leaves `B` as the current
section. -/
theorem c6_implicit_close (s : PState) (chunk : Str) (A B : MSection)
    (i : Nat) (hsec : s.currentSection = some A)
    (hfind : findFirstMarker (s.buffer ++ chunk) = some (.start B, i)) :
    (∃ pre post, (process s chunk).1 =
        pre ++ Event.sectionEnd A :: Event.sectionStart B :: post ∧
        ∀ e ∈ pre, ∃ t, e = Event.textChunk t) ∧
      handleMarker (.start B) (some A) =
        ([Event.sectionEnd A, Event.sectionStart B], some B) := by
  refine ⟨?_, rfl⟩
  have hev : (process s chunk).1 =
      (if (s.buffer ++ chunk).take i ≠ [] ∧ (s.currentSection).isSome then
        [Event.textChunk ((s.buffer ++ chunk).take i)] else []) ++
      (handleMarker (.start B) s.currentSection).1 ++
      (processLoop
        ((s.buffer ++ chunk).drop (i + (markerStr (.start B)).length))
        (handleMarker (.start B) s.currentSection).2).1 := by
    unfold process
    rw [processLoop_eq_some hfind]
  rw [hsec] at hev
  refine ⟨(if (s.buffer ++ chunk).take i ≠ [] ∧
      (some A : Option MSection).isSome then
    [Event.textChunk ((s.buffer ++ chunk).take i)] else []),
    (processLoop
      ((s.buffer ++ chunk).drop (i + (markerStr (Marker.start B)).length))
      (handleMarker (Marker.start B) (some A)).2).1, ?_, ?_⟩
  · rw [hev]
    rw [List.append_assoc]
    rfl
  · intro e he
    by_cases hc : (s.buffer ++ chunk).take i ≠ [] ∧
        (some A : Option MSection).isSome
    · rw [if_pos hc] at he
      exact ⟨_, by simpa using he⟩
    · rw [if_neg hc] at he
      cases he

/-- C6 (witness): opening `EXPLANATION` while `DICTIONARY` is open. -/
theorem c6_witness :
    (⟨[], some .DICTIONARY⟩ : PState).currentSection = some .DICTIONARY ∧
      findFirstMarker (([] : Str) ++ "ab[EXPLANATION_START]".toList) =
        some (.start .EXPLANATION, 2) ∧
      ((∃ pre post,
          (process ⟨[], some .DICTIONARY⟩
            ("ab[EXPLANATION_START]".toList)).1 =
            pre ++ Event.sectionEnd .DICTIONARY ::
              Event.sectionStart .EXPLANATION :: post ∧
          ∀ e ∈ pre, ∃ t, e = Event.textChunk t) ∧
        handleMarker (.start .EXPLANATION) (some .DICTIONARY) =
          ([Event.sectionEnd .DICTIONARY, Event.sectionStart .EXPLANATION],
           some .EXPLANATION)) :=
  ⟨rfl, by decide,
    c6_implicit_close ⟨[], some .DICTIONARY⟩
      ("ab[EXPLANATION_START]".toList) .DICTIONARY .EXPLANATION 2 rfl
      (by decide)⟩

/-- C7: after every call to `process`, the carry-over buffer contains no
complete occurrence of any known open or close marker (it may still end
with a proper prefix of one, which a later fragment can complete). -/
theorem c7_buffer_marker_free (s : PState) (chunk : Str) :
    findFirstMarker (process s chunk).2.buffer = none ∧
      ∀ m : Marker,
        indexOfSub (markerStr m) (process s chunk).2.buffer = none := by
  have h := process_residual s chunk
  exact ⟨h, findFirstMarker_eq_none h⟩

unseal processLoop in
/-- C9 (counterexample): after processing a lone `[EXPLANATION_START]` the
buffer is empty and the section open; `finalize` then emits nothing and
leaves the section open, so the state after a first `finalize` is not
always `(empty buffer, no open section)` as the claim describes it. -/
theorem c9_counterexample :
    (finalize
        (process ⟨[], none⟩ ("[EXPLANATION_START]".toList)).2).2 =
      ⟨[], some .EXPLANATION⟩ ∧
      (finalize
          (process ⟨[], none⟩ ("[EXPLANATION_START]".toList)).2).2.currentSection
        ≠ none := by decide

/-- C9 (amended): `finalize` is idempotent — a second call immediately
after a first returns no events and leaves the state exactly as the first
left it (its buffer is empty; the open-section flag was reset by the first
call only when it flushed a nonempty buffer, and may otherwise still hold
an open section). -/
theorem c9_finalize_idempotent (s : PState) :
    finalize (finalize s).2 = ([], (finalize s).2) := by
  unfold finalize
  cases s.currentSection with
  | none => rfl
  | some cur =>
    by_cases h : s.buffer ≠ [] <;> simp [h]

/-- C10: the chunking variant of the processor is the plain variant with
every `text_chunk` re-chunked into pieces of at most 3 characters, for
`process` and `finalize` alike: identical final states, identical
`section_start` / `section_end` events in the same order, identical
concatenated text, and every emitted chunk at most 3 characters long. -/
theorem c10_variant_equivalence (s : PState) (chunk : Str) :
    processChunked s chunk =
        (expandChunks (process s chunk).1, (process s chunk).2) ∧
      finalizeChunked s =
        (expandChunks (finalize s).1, (finalize s).2) ∧
      sectionEvents (processChunked s chunk).1 =
        sectionEvents (process s chunk).1 ∧
      textConcat (processChunked s chunk).1 =
        textConcat (process s chunk).1 ∧
      allChunksSmall (processChunked s chunk).1 = true ∧
      sectionEvents (finalizeChunked s).1 = sectionEvents (finalize s).1 ∧
      textConcat (finalizeChunked s).1 = textConcat (finalize s).1 ∧
      allChunksSmall (finalizeChunked s).1 = true := by
  have hp := processChunked_eq_expand s chunk
  have hf := finalizeChunked_eq_expand s
  refine ⟨hp, hf, ?_, ?_, ?_, ?_, ?_, ?_⟩
  · rw [hp]; exact sectionEvents_expandChunks _
  · rw [hp]; exact textConcat_expandChunks _
  · rw [hp]; exact allChunksSmall_expandChunks _
  · rw [hf]; exact sectionEvents_expandChunks _
  · rw [hf]; exact textConcat_expandChunks _
  · rw [hf]; exact allChunksSmall_expandChunks _

end LiteLingo
